import Mathlib

/-!
Verification of the record-store core of the CODESYS alarm CSV editor.

The program stores alarm records in a semicolon-delimited text file with a
fixed 15-column schema.  All core operations are pure functions over the
decoded text of that file, so the embedding models a file as an
`Option (List Char)`: `none` means the path does not exist, `some cs` means
the file exists and its UTF-16-LE decoding (using the BOM-less utf-16-le
codec, exactly as the program reads it) is the character sequence `cs`.
Byte-level UTF-16-LE encoding round-trips characters exactly, so this
string-level model is byte-faithful; in particular the BOM written by the
new-file path decodes to the single character U+FEFF, which the model keeps
as an ordinary character, just as the program's BOM-less reader does.

Python text-mode reading performs universal-newline translation and the
program then calls str.splitlines; the composition splits on CRLF, CR, LF
and the extra splitlines boundary characters, which `splitlinesPy` models.
`pyStrip` models str.strip() with Python's whitespace set.
-/

set_option maxRecDepth 8000

namespace AlarmGen

/-- Cell of a record: the decoded characters of one field. -/
abbrev Cell := List Char

/-- Row: one parsed line, a list of cells. -/
abbrev Row := List Cell

/-- Characters that end a line for the program's reading path
(universal-newline translation followed by str.splitlines). -/
def isLineBoundary (c : Char) : Bool :=
  c = '\n' || c = '\r' || c = '\x0b' || c = '\x0c' ||
  c = '\x1c' || c = '\x1d' || c = '\x1e' || c = '\x85' ||
  c = ' ' || c = ' '

/-- Characters removed by Python str.strip() (the str.isspace set). -/
def isPySpace (c : Char) : Bool :=
  c = ' ' || c = '\t' || c = '\n' || c = '\r' || c = '\x0b' || c = '\x0c' ||
  c = '\x1c' || c = '\x1d' || c = '\x1e' || c = '\x1f' || c = '\x85' ||
  c = ' ' || c = ' ' ||
  ((' ' : Char) ≤ c && c ≤ (' ' : Char)) ||
  c = ' ' || c = ' ' || c = ' ' || c = ' ' || c = '　'

/-- Universal-newline translation applied by Python text-mode reading:
CRLF and lone CR both become LF.  The flag records whether the previous
character was a CR, so that the LF of a CRLF pair is dropped. -/
def univNLGo : Bool → List Char → List Char
  | _, [] => []
  | afterCR, c :: cs =>
    if afterCR ∧ c = '\n' then univNLGo false cs
    else if c = '\r' then '\n' :: univNLGo true cs
    else c :: univNLGo false cs

/-- Universal-newline translation of a whole text. -/
def univNL (cs : List Char) : List Char := univNLGo false cs

/-- Line accumulator loop of str.splitlines on translated text: cur holds
the reversed characters of the line being read, and a boundary at the very
end of the input produces no extra empty line. -/
def splitNLGo : List Char → List Char → List (List Char)
  | cur, [] => if cur = [] then [] else [cur.reverse]
  | cur, c :: cs =>
    if isLineBoundary c then cur.reverse :: splitNLGo [] cs
    else splitNLGo (c :: cur) cs

/-- Model of text-mode read followed by str.splitlines: universal-newline
translation, then splitting at line-boundary characters. -/
def splitlinesPy (cs : List Char) : List (List Char) := splitNLGo [] (univNL cs)

/-- Split a character list on a separator character, Python str.split(sep)
semantics: the empty input yields one empty segment. -/
def splitOnChar (sep : Char) : List Char → List (List Char)
  | [] => [[]]
  | c :: cs =>
    match splitOnChar sep cs with
    | [] => [[]]
    | f :: rest => if c = sep then [] :: f :: rest else (c :: f) :: rest

/-- Join cells with a separator character, Python sep.join semantics. -/
def joinSep (sep : Char) : List (List Char) → List Char
  | [] => []
  | [f] => f
  | f :: g :: fs => f ++ sep :: joinSep sep (g :: fs)

/-- Drop characters satisfying p from both ends of a list. -/
def stripBoth (p : Char → Bool) (cs : List Char) : List Char :=
  ((cs.dropWhile p).reverse.dropWhile p).reverse

/-- Python str.strip(): whitespace removed from both ends. -/
def pyStrip (cs : List Char) : List Char := stripBoth isPySpace cs

/-- Cell sanitization applied by the reader to each split cell:
c.strip().strip(double-quote).strip(apostrophe). -/
def cleanCell (cs : List Char) : List Char :=
  stripBoth (fun c => c = '\'') (stripBoth (fun c => c = '"') (pyStrip cs))

/-- Right-pad a row with empty cells up to length n (the reader's while
loop appending empty strings). -/
def padTo (n : Nat) (r : Row) : Row := r ++ List.replicate (n - r.length) []

/-- Characters of a string literal, for writing concrete cells. -/
def strC (s : String) : List Char := s.data

/-- The fixed 15-column schema (COLUMNS in the source). -/
def COLUMNS : List Cell :=
  [strC "ID", strC "ObservationType", strC "Details1", strC "Details2",
   strC "Details3", strC "Details4", strC "Details5", strC "Details6",
   strC "Deactivation", strC "Class", strC "Message", strC "MinPendingTime",
   strC "Latch1", strC "Latch2", strC "HigherPrioAlarm"]

/-- CRLF terminator written after every line. -/
def CRLF : List Char := ['\r', '\n']

/-- Header line written by ensure_file_and_header: schema names joined by
the delimiter, CRLF-terminated. -/
def headerLineChars : List Char := joinSep ';' COLUMNS ++ CRLF

/-- ensure_file_and_header: if the path does not exist, create the file
containing only the header line; otherwise leave the content unchanged. -/
def ensure_file_and_header (fs : Option (List Char)) : List Char :=
  match fs with
  | some content => content
  | none => headerLineChars

/-- Replace every occurrence of one character by another
(Python str.replace for single-character arguments). -/
def replaceChar (old new : Char) (cs : List Char) : List Char :=
  cs.map (fun c => if c = old then new else c)

/-- Field sanitization inside append_row_utf16le: None becomes the empty
string, otherwise newline and carriage return become spaces and double
quotes become apostrophes (three successive str.replace calls). -/
def sanitizeVal : Option (List Char) → List Char
  | none => []
  | some s => replaceChar '"' '\'' (replaceChar '\r' ' ' (replaceChar '\n' ' ' s))

/-- append_row_utf16le: sanitize the row, join with the delimiter, ensure
the file (and header) exists, then append the CRLF-terminated line. -/
def append_row_utf16le (fs : Option (List Char)) (row : List (Option (List Char))) :
    List Char :=
  ensure_file_and_header fs ++ (joinSep ';' (row.map sanitizeVal) ++ CRLF)

/-- Content written by create_new_file: the UTF-16-LE BOM (which decodes to
the character U+FEFF under the program's BOM-less reader), the version line
with 14 bare delimiters, then the header line. -/
def create_new_file_content : List Char :=
  '﻿' :: ((strC "#Version: 1.0.0.0" ++ List.replicate (COLUMNS.length - 1) ';' ++ CRLF)
    ++ headerLineChars)

/-- read_all_rows: split the decoded text into lines, drop blank lines,
split each line on the delimiter, clean each cell, and right-pad each row
to the schema length.  A missing (or unreadable) file yields no rows. -/
def read_all_rows (fs : Option (List Char)) : List Row :=
  match fs with
  | none => []
  | some content =>
    (splitlinesPy content).filterMap (fun line =>
      if pyStrip line = [] then none
      else some (padTo COLUMNS.length ((splitOnChar ';' line).map cleanCell)))

/-- Data-row selection used by refresh_preview_and_autosize and id_exists:
skip the first two rows when more than two rows exist, otherwise no data. -/
def dataRowsPreview (rows : List Row) : List Row :=
  if 2 < rows.length then rows.drop 2 else []

/-- id_exists: scan the preview data rows for one whose first cell equals
the target id, skipping a row whose first cell equals the excluded id. -/
def id_exists (fs : Option (List Char)) (target : Cell) (exclude : Option Cell) : Bool :=
  (dataRowsPreview (read_all_rows fs)).any (fun r =>
    match r with
    | [] => false
    | f0 :: _ =>
      decide (f0 = target) &&
        !(match exclude with
          | some e => decide (f0 = e)
          | none => false))

/-- Does a row match an id: nonempty and its first cell equals the id. -/
def rowIdIs (r : Row) (target : Cell) : Bool :=
  match r with
  | [] => false
  | f0 :: _ => decide (f0 = target)

/-- Remove the first row matching the id; none when no row matches
(delete_selected's removed flag). -/
def removeFirstById (target : Cell) : List Row → Option (List Row)
  | [] => none
  | r :: rs =>
    if rowIdIs r target then some rs
    else (removeFirstById target rs).map (fun l => r :: l)

/-- Replace the first row matching the id by a new row; none when no row
matches (save_changes's updated flag). -/
def replaceFirstById (target : Cell) (newR : Row) : List Row → Option (List Row)
  | [] => none
  | r :: rs =>
    if rowIdIs r target then some (newR :: rs)
    else (replaceFirstById target newR rs).map (fun l => r :: l)

/-- Full-rewrite serialization used by delete_selected and save_changes:
each row is right-padded to the schema length, joined with the delimiter,
and written with a CRLF terminator. -/
def encodeLines (rows : List Row) : List Char :=
  (rows.map (fun r => joinSep ';' (padTo COLUMNS.length r) ++ CRLF)).flatten

/-- delete_selected's file logic: keep the first two rows when more than
two exist (else keep nothing and treat every row as data), remove the
first row whose first cell equals the target id, and rewrite the file;
none models the not-found branch, where nothing is written. -/
def delete_selected_core (fs : Option (List Char)) (target : Cell) :
    Option (List Char) :=
  let rows := read_all_rows fs
  let keep := if 2 < rows.length then rows.take 2 else []
  let data := if 2 < rows.length then rows.drop 2 else rows
  match removeFirstById target data with
  | none => none
  | some data2 => some (encodeLines (keep ++ data2))

/-- save_changes's file logic: same header/data split as delete, replace
the first row whose first cell equals the original id by the new row, and
rewrite the file; none models the not-found branch (nothing written). -/
def save_changes_core (fs : Option (List Char)) (original_id : Cell) (new_r : Row) :
    Option (List Char) :=
  let rows := read_all_rows fs
  let keep := if 2 < rows.length then rows.take 2 else []
  let data := if 2 < rows.length then rows.drop 2 else rows
  match replaceFirstById original_id new_r data with
  | none => none
  | some data2 => some (encodeLines (keep ++ data2))

/-- Value of a digit run with optional single underscores between digits,
continuing from an accumulator; none on a malformed run (Python int()
grammar for the digit part). -/
def pyDigitsCont : List Char → Nat → Option Nat
  | [], acc => some acc
  | '_' :: c :: cs, acc =>
    if c.isDigit then pyDigitsCont cs (acc * 10 + (c.toNat - 48)) else none
  | ['_'], _ => none
  | c :: cs, acc =>
    if c.isDigit then pyDigitsCont cs (acc * 10 + (c.toNat - 48)) else none

/-- Digit run of Python int(): nonempty, starts with a digit. -/
def pyIntDigits : List Char → Option Nat
  | [] => none
  | c :: cs => if c.isDigit then pyDigitsCont cs (c.toNat - 48) else none

/-- Python int(string) on ASCII input: strip whitespace, optional sign,
then a digit run (underscore separators allowed); none when the call would
raise.  Non-ASCII decimal digits are not modelled. -/
def pyIntParse (cs : List Char) : Option Int :=
  match pyStrip cs with
  | '+' :: rest => (pyIntDigits rest).map (fun n => (n : Int))
  | '-' :: rest => (pyIntDigits rest).map (fun n => -(n : Int))
  | rest => (pyIntDigits rest).map (fun n => (n : Int))

/-- Sort key type of try_int_key: (0, int) or (1, string). -/
abbrev PyKey := Int ⊕ Cell

/-- try_int_key: numeric key when the cell parses as an integer, else the
string itself. -/
def try_int_key (x : Cell) : PyKey :=
  match pyIntParse x with
  | some i => Sum.inl i
  | none => Sum.inr x

/-- Sort key of a row: try_int_key of its first cell, empty when absent. -/
def rowKey (r : Row) : PyKey := try_int_key (r.headD [])

/-- Lexicographic comparison of cells by code point (Python string order). -/
def strLe : List Char → List Char → Bool
  | [], _ => true
  | _ :: _, [] => false
  | a :: as, b :: bs =>
    if a.toNat < b.toNat then true
    else if b.toNat < a.toNat then false
    else strLe as bs

/-- Order on sort keys, mirroring Python tuple comparison of
(0, int) and (1, string) keys. -/
def keyLe : PyKey → PyKey → Bool
  | Sum.inl i, Sum.inl j => decide (i ≤ j)
  | Sum.inl _, Sum.inr _ => true
  | Sum.inr _, Sum.inl _ => false
  | Sum.inr s, Sum.inr t => strLe s t

/-- Display order relation on rows: key of the first at most key of the
second. -/
def dispLe (r s : Row) : Prop := keyLe (rowKey r) (rowKey s) = true

instance : DecidableRel dispLe := fun r s => by
  unfold dispLe
  infer_instance

/-- Display ordering of data rows: the stable sort by try_int_key used by
refresh_preview_and_autosize (Python sorted is a stable sort by key, which
insertion sort on a total preorder reproduces exactly). -/
def orderForDisplay (rows : List Row) : List Row := List.insertionSort dispLe rows

/-! Basic facts about the split, join, strip and pad primitives. -/

theorem COLUMNS_length : COLUMNS.length = 15 := by rfl

theorem splitOnChar_ne_nil (sep : Char) (cs : List Char) : splitOnChar sep cs ≠ [] := by
  cases cs with
  | nil => simp [splitOnChar]
  | cons c cs =>
    simp only [splitOnChar]
    split
    · simp
    · split <;> simp

theorem splitOnChar_no_sep (sep : Char) (f : List Char) (h : sep ∉ f) :
    splitOnChar sep f = [f] := by
  induction f with
  | nil => rfl
  | cons c cs ih =>
    have hc : ¬ c = sep := by
      intro e
      exact h (e ▸ List.mem_cons_self c cs)
    have ih2 := ih (fun m => h (List.mem_cons_of_mem _ m))
    simp only [splitOnChar, ih2]
    simp [hc]

theorem splitOnChar_append_sep (sep : Char) (f t : List Char) (h : sep ∉ f) :
    splitOnChar sep (f ++ sep :: t) = f :: splitOnChar sep t := by
  induction f with
  | nil =>
    obtain ⟨g, rest, hg⟩ : ∃ g rest, splitOnChar sep t = g :: rest := by
      cases hsp : splitOnChar sep t with
      | nil => exact absurd hsp (splitOnChar_ne_nil sep t)
      | cons g rest => exact ⟨g, rest, rfl⟩
    simp only [List.nil_append, splitOnChar, hg]
    simp
  | cons c cs ih =>
    have hc : ¬ c = sep := by
      intro e
      exact h (e ▸ List.mem_cons_self c cs)
    have ih2 := ih (fun m => h (List.mem_cons_of_mem _ m))
    simp only [List.cons_append, splitOnChar, List.append_eq]
    rw [ih2]
    simp [hc]

theorem splitOnChar_joinSep (sep : Char) (fs : List (List Char))
    (h : ∀ f ∈ fs, sep ∉ f) (hne : fs ≠ []) :
    splitOnChar sep (joinSep sep fs) = fs := by
  induction fs with
  | nil => exact absurd rfl hne
  | cons f fs ih =>
    cases fs with
    | nil => exact splitOnChar_no_sep sep f (h f (List.mem_cons_self _ _))
    | cons g gs =>
      simp only [joinSep]
      rw [splitOnChar_append_sep sep f _ (h f (List.mem_cons_self _ _))]
      rw [ih (fun x hx => h x (List.mem_cons_of_mem _ hx)) (by simp)]

theorem mem_splitOnChar_not_sep (sep : Char) (cs : List Char) :
    ∀ seg ∈ splitOnChar sep cs, sep ∉ seg := by
  induction cs with
  | nil =>
    intro seg hseg
    simp [splitOnChar] at hseg
    simp [hseg]
  | cons c cs ih =>
    intro seg hseg
    obtain ⟨g, rest, hg⟩ : ∃ g rest, splitOnChar sep cs = g :: rest := by
      cases hsp : splitOnChar sep cs with
      | nil => exact absurd hsp (splitOnChar_ne_nil sep cs)
      | cons g rest => exact ⟨g, rest, rfl⟩
    simp only [splitOnChar, hg] at hseg
    by_cases hc : c = sep
    · simp [hc] at hseg
      rcases hseg with h1 | h1
      · simp [h1]
      · exact ih seg (by rw [hg]; exact List.mem_cons.mpr h1)
    · simp [hc] at hseg
      rcases hseg with h1 | h1
      · subst h1
        intro hmem
        rcases List.mem_cons.mp hmem with h2 | h2
        · exact hc h2.symm
        · exact ih g (by rw [hg]; exact List.mem_cons_self g rest) h2
      · exact ih seg (by rw [hg]; exact List.mem_cons_of_mem g h1)

theorem mem_splitOnChar_subset (sep : Char) (cs : List Char) :
    ∀ seg ∈ splitOnChar sep cs, ∀ a ∈ seg, a ∈ cs := by
  induction cs with
  | nil =>
    intro seg hseg a ha
    simp [splitOnChar] at hseg
    subst hseg
    simp at ha
  | cons c cs ih =>
    intro seg hseg a ha
    obtain ⟨g, rest, hg⟩ : ∃ g rest, splitOnChar sep cs = g :: rest := by
      cases hsp : splitOnChar sep cs with
      | nil => exact absurd hsp (splitOnChar_ne_nil sep cs)
      | cons g rest => exact ⟨g, rest, rfl⟩
    simp only [splitOnChar, hg] at hseg
    by_cases hc : c = sep
    · simp [hc] at hseg
      rcases hseg with h1 | h1
      · subst h1
        simp at ha
      · exact List.mem_cons_of_mem c
          (ih seg (by rw [hg]; exact List.mem_cons.mpr h1) a ha)
    · simp [hc] at hseg
      rcases hseg with h1 | h1
      · subst h1
        rcases List.mem_cons.mp ha with h2 | h2
        · exact h2 ▸ List.mem_cons_self c cs
        · exact List.mem_cons_of_mem c
            (ih g (by rw [hg]; exact List.mem_cons_self g rest) a h2)
      · exact List.mem_cons_of_mem c
          (ih seg (by rw [hg]; exact List.mem_cons_of_mem g h1) a ha)

theorem mem_joinSep (sep : Char) (fs : List (List Char)) :
    ∀ a ∈ joinSep sep fs, a = sep ∨ ∃ f ∈ fs, a ∈ f := by
  induction fs with
  | nil =>
    intro a ha
    simp [joinSep] at ha
  | cons f fs ih =>
    intro a ha
    cases fs with
    | nil =>
      simp only [joinSep] at ha
      exact Or.inr ⟨f, List.mem_cons_self _ _, ha⟩
    | cons g gs =>
      simp only [joinSep] at ha
      rcases List.mem_append.mp ha with h1 | h1
      · exact Or.inr ⟨f, List.mem_cons_self _ _, h1⟩
      · rcases List.mem_cons.mp h1 with h2 | h2
        · exact Or.inl h2
        · rcases ih a h2 with h3 | ⟨x, hx, hax⟩
          · exact Or.inl h3
          · exact Or.inr ⟨x, List.mem_cons_of_mem _ hx, hax⟩

theorem sep_mem_joinSep (sep : Char) (fs : List (List Char)) (h : 2 ≤ fs.length) :
    sep ∈ joinSep sep fs := by
  match fs, h with
  | f :: g :: gs, _ =>
    simp only [joinSep]
    exact List.mem_append.mpr (Or.inr (List.mem_cons_self _ _))

theorem mem_dropWhile_of_not (p : Char → Bool) (cs : List Char) (a : Char)
    (h : a ∈ cs) (hp : p a = false) : a ∈ cs.dropWhile p := by
  induction cs with
  | nil => simp at h
  | cons c cs ih =>
    by_cases hpc : p c = true
    · rw [List.dropWhile_cons_of_pos hpc]
      rcases List.mem_cons.mp h with h1 | h1
      · subst h1
        rw [hp] at hpc
        simp at hpc
      · exact ih h1
    · rw [List.dropWhile_cons_of_neg hpc]
      exact h

theorem mem_stripBoth_of_not (p : Char → Bool) (cs : List Char) (a : Char)
    (h : a ∈ cs) (hp : p a = false) : a ∈ stripBoth p cs := by
  unfold stripBoth
  rw [List.mem_reverse]
  apply mem_dropWhile_of_not _ _ _ _ hp
  rw [List.mem_reverse]
  exact mem_dropWhile_of_not _ _ _ h hp

theorem mem_of_mem_stripBoth (p : Char → Bool) (cs : List Char) (a : Char)
    (h : a ∈ stripBoth p cs) : a ∈ cs := by
  unfold stripBoth at h
  rw [List.mem_reverse] at h
  have h2 := (List.dropWhile_sublist p).mem h
  rw [List.mem_reverse] at h2
  exact (List.dropWhile_sublist p).mem h2

theorem mem_of_mem_cleanCell (cs : List Char) (a : Char) (h : a ∈ cleanCell cs) :
    a ∈ cs := by
  unfold cleanCell at h
  exact mem_of_mem_stripBoth _ _ _
    (mem_of_mem_stripBoth _ _ _ (mem_of_mem_stripBoth _ _ _ h))

theorem pyStrip_ne_nil_of_sep_mem (cs : List Char) (h : ';' ∈ cs) :
    pyStrip cs ≠ [] := by
  intro hnil
  have hm : (';' : Char) ∈ pyStrip cs :=
    mem_stripBoth_of_not _ _ _ h (by decide)
  rw [hnil] at hm
  simp at hm

theorem padTo_length (n : Nat) (r : Row) : (padTo n r).length = max n r.length := by
  unfold padTo
  simp
  omega

theorem padTo_eq_self (n : Nat) (r : Row) (h : n ≤ r.length) : padTo n r = r := by
  unfold padTo
  have : n - r.length = 0 := by omega
  simp [this]

theorem padTo_padTo (n : Nat) (r : Row) : padTo n (padTo n r) = padTo n r := by
  apply padTo_eq_self
  rw [padTo_length]
  omega

theorem mem_padTo (n : Nat) (r : Row) (f : Cell) (h : f ∈ padTo n r) :
    f ∈ r ∨ f = [] := by
  unfold padTo at h
  rcases List.mem_append.mp h with h1 | h1
  · exact Or.inl h1
  · exact Or.inr (List.eq_of_mem_replicate h1)

theorem padTo_length_ge (n : Nat) (r : Row) : n ≤ (padTo n r).length := by
  rw [padTo_length]
  omega

/-! Facts about universal-newline translation and line splitting. -/

theorem univNLGo_append_crlf (line rest : List Char)
    (h : ∀ c ∈ line, isLineBoundary c = false) :
    univNLGo false (line ++ '\r' :: '\n' :: rest) = line ++ '\n' :: univNLGo false rest := by
  induction line with
  | nil => rfl
  | cons c l ih =>
    have hc := h c (List.mem_cons_self c l)
    have hcr : ¬ c = '\r' := by
      intro e
      subst e
      exact absurd hc (by decide)
    simp only [List.cons_append, univNLGo]
    rw [if_neg (by simp), if_neg hcr]
    simp only [List.append_eq]
    rw [ih (fun x hx => h x (List.mem_cons_of_mem _ hx))]

theorem splitNLGo_append_nl (line rest acc : List Char)
    (h : ∀ c ∈ line, isLineBoundary c = false) :
    splitNLGo acc (line ++ '\n' :: rest) = (acc.reverse ++ line) :: splitNLGo [] rest := by
  induction line generalizing acc with
  | nil => simp only [List.nil_append, List.append_nil]; rfl
  | cons c l ih =>
    have hc := h c (List.mem_cons_self c l)
    simp only [List.cons_append, splitNLGo]
    rw [if_neg (by simp [hc])]
    simp only [List.append_eq]
    rw [ih (c :: acc) (fun x hx => h x (List.mem_cons_of_mem _ hx))]
    simp

theorem mem_splitNLGo_no_boundary :
    ∀ (cs acc : List Char), (∀ c ∈ acc, isLineBoundary c = false) →
      ∀ l ∈ splitNLGo acc cs, ∀ c ∈ l, isLineBoundary c = false := by
  intro cs
  induction cs with
  | nil =>
    intro acc hacc l hl c hc
    simp only [splitNLGo] at hl
    by_cases he : acc = []
    · simp [he] at hl
    · rw [if_neg he] at hl
      rcases List.mem_singleton.mp hl with rfl
      exact hacc c (List.mem_reverse.mp hc)
  | cons a cs ih =>
    intro acc hacc l hl c hc
    simp only [splitNLGo] at hl
    by_cases hb : isLineBoundary a = true
    · rw [if_pos hb] at hl
      rcases List.mem_cons.mp hl with rfl | h2
      · exact hacc c (List.mem_reverse.mp hc)
      · exact ih [] (by intro x hx; simp at hx) l h2 c hc
    · rw [if_neg hb] at hl
      refine ih (a :: acc) ?_ l hl c hc
      intro x hx
      rcases List.mem_cons.mp hx with rfl | h3
      · exact Bool.of_not_eq_true hb
      · exact hacc x h3

theorem mem_splitlinesPy_no_boundary (content : List Char) :
    ∀ l ∈ splitlinesPy content, ∀ c ∈ l, isLineBoundary c = false := by
  intro l hl
  exact mem_splitNLGo_no_boundary (univNL content) [] (by intro x hx; simp at hx) l hl

/-! The write-then-read round trip of the full-rewrite paths. -/

/-- Serialized form of one row inside encodeLines, before the CRLF. -/
def lineOf (r : Row) : List Char := joinSep ';' (padTo COLUMNS.length r)

theorem encodeLines_cons (r : Row) (rs : List Row) :
    encodeLines (r :: rs) = (lineOf r ++ CRLF) ++ encodeLines rs := rfl

theorem lineOf_no_boundary (r : Row)
    (h : ∀ f ∈ r, ∀ c ∈ f, isLineBoundary c = false) :
    ∀ c ∈ lineOf r, isLineBoundary c = false := by
  intro c hc
  rcases mem_joinSep ';' _ c hc with h1 | ⟨f, hf, hcf⟩
  · subst h1
    decide
  · rcases mem_padTo _ _ _ hf with h2 | h2
    · exact h f h2 c hcf
    · subst h2
      simp at hcf

theorem univNL_encodeLines (rows : List Row)
    (hb : ∀ r ∈ rows, ∀ f ∈ r, ∀ c ∈ f, isLineBoundary c = false) :
    univNL (encodeLines rows) = (rows.map (fun r => lineOf r ++ ['\n'])).flatten := by
  induction rows with
  | nil => rfl
  | cons r rs ih =>
    rw [encodeLines_cons]
    have hline := lineOf_no_boundary r (hb r (List.mem_cons_self _ _))
    have : (lineOf r ++ CRLF) ++ encodeLines rs
        = lineOf r ++ '\r' :: '\n' :: encodeLines rs := by
      simp [CRLF]
    rw [this]
    unfold univNL
    rw [univNLGo_append_crlf _ _ hline]
    rw [show univNLGo false (encodeLines rs) = univNL (encodeLines rs) from rfl]
    rw [ih (fun x hx => hb x (List.mem_cons_of_mem _ hx))]
    simp

theorem splitNL_flatten (rows : List Row)
    (hb : ∀ r ∈ rows, ∀ f ∈ r, ∀ c ∈ f, isLineBoundary c = false) :
    splitNLGo [] ((rows.map (fun r => lineOf r ++ ['\n'])).flatten)
      = rows.map lineOf := by
  induction rows with
  | nil => rfl
  | cons r rs ih =>
    have hline := lineOf_no_boundary r (hb r (List.mem_cons_self _ _))
    have : ((r :: rs).map (fun r => lineOf r ++ ['\n'])).flatten
        = lineOf r ++ '\n' :: (rs.map (fun r => lineOf r ++ ['\n'])).flatten := by
      simp
    rw [this]
    rw [splitNLGo_append_nl _ _ [] hline]
    rw [ih (fun x hx => hb x (List.mem_cons_of_mem _ hx))]
    simp

theorem splitlinesPy_encodeLines (rows : List Row)
    (hb : ∀ r ∈ rows, ∀ f ∈ r, ∀ c ∈ f, isLineBoundary c = false) :
    splitlinesPy (encodeLines rows) = rows.map lineOf := by
  unfold splitlinesPy
  rw [univNL_encodeLines rows hb]
  exact splitNL_flatten rows hb

theorem map_eq_self_of_fix {α : Type} (f : α → α) :
    ∀ (l : List α), (∀ x ∈ l, f x = x) → l.map f = l := by
  intro l h
  induction l with
  | nil => rfl
  | cons a t ih =>
    simp only [List.map_cons]
    rw [h a (List.mem_cons_self _ _), ih (fun x hx => h x (List.mem_cons_of_mem _ hx))]

theorem decode_lineOf (r : Row)
    (hs : ∀ f ∈ r, ';' ∉ f)
    (hc : ∀ f ∈ r, cleanCell f = f) :
    padTo COLUMNS.length ((splitOnChar ';' (lineOf r)).map cleanCell)
      = padTo COLUMNS.length r := by
  unfold lineOf
  have hsep : ∀ f ∈ padTo COLUMNS.length r, ';' ∉ f := by
    intro f hf
    rcases mem_padTo _ _ _ hf with h1 | h1
    · exact hs f h1
    · subst h1
      simp
  have hne : padTo COLUMNS.length r ≠ [] := by
    intro he
    have := padTo_length_ge COLUMNS.length r
    rw [he] at this
    simp [COLUMNS_length] at this
  rw [splitOnChar_joinSep ';' _ hsep hne]
  have hfix : ∀ f ∈ padTo COLUMNS.length r, cleanCell f = f := by
    intro f hf
    rcases mem_padTo _ _ _ hf with h1 | h1
    · exact hc f h1
    · subst h1
      rfl
  rw [map_eq_self_of_fix _ _ hfix, padTo_padTo]

theorem lineOf_not_blank (r : Row) : pyStrip (lineOf r) ≠ [] := by
  apply pyStrip_ne_nil_of_sep_mem
  apply sep_mem_joinSep
  have h := padTo_length_ge COLUMNS.length r
  have h15 : (15 : Nat) ≤ COLUMNS.length := by rw [COLUMNS_length]
  omega

theorem read_encodeLines (rows : List Row)
    (hb : ∀ r ∈ rows, ∀ f ∈ r, ∀ c ∈ f, isLineBoundary c = false)
    (hs : ∀ r ∈ rows, ∀ f ∈ r, ';' ∉ f)
    (hc : ∀ r ∈ rows, ∀ f ∈ r, cleanCell f = f) :
    read_all_rows (some (encodeLines rows)) = rows.map (padTo COLUMNS.length) := by
  simp only [read_all_rows]
  rw [splitlinesPy_encodeLines rows hb]
  induction rows with
  | nil => rfl
  | cons r rs ih =>
    simp only [List.map_cons, List.filterMap_cons]
    rw [if_neg (lineOf_not_blank r)]
    rw [decode_lineOf r (hs r (List.mem_cons_self _ _)) (hc r (List.mem_cons_self _ _))]
    rw [ih (fun x hx => hb x (List.mem_cons_of_mem _ hx))
        (fun x hx => hs x (List.mem_cons_of_mem _ hx))
        (fun x hx => hc x (List.mem_cons_of_mem _ hx))]

/-! Shape facts about rows produced by read_all_rows. -/

theorem mem_read_all_rows (fs : Option (List Char)) (r : Row)
    (hr : r ∈ read_all_rows fs) :
    COLUMNS.length ≤ r.length ∧
      ∀ f ∈ r, ';' ∉ f ∧ ∀ c ∈ f, isLineBoundary c = false := by
  cases fs with
  | none => simp [read_all_rows] at hr
  | some content =>
    simp only [read_all_rows] at hr
    rcases List.mem_filterMap.mp hr with ⟨line, hline, hsome⟩
    by_cases hblank : pyStrip line = []
    · rw [if_pos hblank] at hsome
      simp at hsome
    · rw [if_neg hblank] at hsome
      have hr2 : r = padTo COLUMNS.length ((splitOnChar ';' line).map cleanCell) :=
        (Option.some.injEq .. ▸ hsome).symm
      subst hr2
      refine ⟨padTo_length_ge _ _, ?_⟩
      intro f hf
      rcases mem_padTo _ _ _ hf with h1 | h1
      · rcases List.mem_map.mp h1 with ⟨seg, hseg, hfc⟩
        subst hfc
        constructor
        · intro hmem
          exact mem_splitOnChar_not_sep ';' line seg hseg (mem_of_mem_cleanCell _ _ hmem)
        · intro c hcf
          have hcl : c ∈ line :=
            mem_splitOnChar_subset ';' line seg hseg c (mem_of_mem_cleanCell _ _ hcf)
          exact mem_splitlinesPy_no_boundary content line hline c hcl
      · subst h1
        constructor
        · simp
        · intro c hcf
          simp at hcf

/-! Facts about first-match removal and replacement. -/

theorem rowIdIs_iff (r : Row) (t : Cell) :
    rowIdIs r t = true ↔ r ≠ [] ∧ r.headD [] = t := by
  cases r with
  | nil => simp [rowIdIs]
  | cons f rest => simp [rowIdIs]

theorem removeFirstById_eq_none (t : Cell) :
    ∀ (l : List Row), removeFirstById t l = none ↔ ∀ r ∈ l, rowIdIs r t = false := by
  intro l
  induction l with
  | nil => simp [removeFirstById]
  | cons r rs ih =>
    simp only [removeFirstById]
    by_cases h : rowIdIs r t = true
    · rw [if_pos h]
      simp [h]
    · rw [if_neg h]
      constructor
      · intro hm
        have hn : removeFirstById t rs = none := by
          cases he : removeFirstById t rs with
          | none => rfl
          | some l2 => rw [he] at hm; simp at hm
        intro x hx
        rcases List.mem_cons.mp hx with rfl | h2
        · exact Bool.of_not_eq_true h
        · exact (ih.mp hn) x h2
      · intro hall
        have : removeFirstById t rs = none :=
          ih.mpr (fun x hx => hall x (List.mem_cons_of_mem _ hx))
        rw [this]
        rfl

theorem removeFirstById_some_decomp (t : Cell) :
    ∀ (l l' : List Row), removeFirstById t l = some l' →
      ∃ l1 rm l2, l = l1 ++ rm :: l2 ∧ l' = l1 ++ l2 ∧ rowIdIs rm t = true ∧
        ∀ r ∈ l1, rowIdIs r t = false := by
  intro l
  induction l with
  | nil => intro l' h; simp [removeFirstById] at h
  | cons r rs ih =>
    intro l' h
    simp only [removeFirstById] at h
    by_cases hr : rowIdIs r t = true
    · rw [if_pos hr] at h
      rcases Option.some.injEq .. ▸ h with rfl
      exact ⟨[], r, rs, by simp, by simp, hr, by simp⟩
    · rw [if_neg hr] at h
      cases he : removeFirstById t rs with
      | none => rw [he] at h; simp at h
      | some l2 =>
        rw [he] at h
        have h4 : some (r :: l2) = some l' := h
        rcases Option.some.injEq .. ▸ h4 with rfl
        rcases ih l2 he with ⟨l1, rm, l3, hdec, hres, hid, hfirst⟩
        refine ⟨r :: l1, rm, l3, by rw [hdec]; rfl, by rw [hres]; rfl, hid, ?_⟩
        intro x hx
        rcases List.mem_cons.mp hx with rfl | h3
        · exact Bool.of_not_eq_true hr
        · exact hfirst x h3

theorem replaceFirstById_eq_none (t : Cell) (nr : Row) :
    ∀ (l : List Row), replaceFirstById t nr l = none ↔ ∀ r ∈ l, rowIdIs r t = false := by
  intro l
  induction l with
  | nil => simp [replaceFirstById]
  | cons r rs ih =>
    simp only [replaceFirstById]
    by_cases h : rowIdIs r t = true
    · rw [if_pos h]
      simp [h]
    · rw [if_neg h]
      constructor
      · intro hm
        have hn : replaceFirstById t nr rs = none := by
          cases he : replaceFirstById t nr rs with
          | none => rfl
          | some l2 => rw [he] at hm; simp at hm
        intro x hx
        rcases List.mem_cons.mp hx with rfl | h2
        · exact Bool.of_not_eq_true h
        · exact (ih.mp hn) x h2
      · intro hall
        have : replaceFirstById t nr rs = none :=
          ih.mpr (fun x hx => hall x (List.mem_cons_of_mem _ hx))
        rw [this]
        rfl

theorem replaceFirstById_some_decomp (t : Cell) (nr : Row) :
    ∀ (l l' : List Row), replaceFirstById t nr l = some l' →
      ∃ l1 rm l2, l = l1 ++ rm :: l2 ∧ l' = l1 ++ nr :: l2 ∧ rowIdIs rm t = true ∧
        ∀ r ∈ l1, rowIdIs r t = false := by
  intro l
  induction l with
  | nil => intro l' h; simp [replaceFirstById] at h
  | cons r rs ih =>
    intro l' h
    simp only [replaceFirstById] at h
    by_cases hr : rowIdIs r t = true
    · rw [if_pos hr] at h
      rcases Option.some.injEq .. ▸ h with rfl
      exact ⟨[], r, rs, by simp, by simp, hr, by simp⟩
    · rw [if_neg hr] at h
      cases he : replaceFirstById t nr rs with
      | none => rw [he] at h; simp at h
      | some l2 =>
        rw [he] at h
        have h4 : some (r :: l2) = some l' := h
        rcases Option.some.injEq .. ▸ h4 with rfl
        rcases ih l2 he with ⟨l1, rm, l3, hdec, hres, hid, hfirst⟩
        refine ⟨r :: l1, rm, l3, by rw [hdec]; rfl, by rw [hres]; rfl, hid, ?_⟩
        intro x hx
        rcases List.mem_cons.mp hx with rfl | h3
        · exact Bool.of_not_eq_true hr
        · exact hfirst x h3

theorem removeFirstById_isSome_of_mem (t : Cell) (l : List Row) (r : Row)
    (hr : r ∈ l) (hid : rowIdIs r t = true) :
    ∃ l', removeFirstById t l = some l' := by
  cases he : removeFirstById t l with
  | none =>
    have := (removeFirstById_eq_none t l).mp he r hr
    rw [hid] at this
    simp at this
  | some l' => exact ⟨l', rfl⟩

theorem replaceFirstById_isSome_of_mem (t : Cell) (nr : Row) (l : List Row) (r : Row)
    (hr : r ∈ l) (hid : rowIdIs r t = true) :
    ∃ l', replaceFirstById t nr l = some l' := by
  cases he : replaceFirstById t nr l with
  | none =>
    have := (replaceFirstById_eq_none t nr l).mp he r hr
    rw [hid] at this
    simp at this
  | some l' => exact ⟨l', rfl⟩

/-! The display order is a total preorder, and insertion sort by it is
stable: filtering the output at any fixed key returns the input's records
with that key, in their original order. -/

theorem strLe_refl (s : List Char) : strLe s s = true := by
  induction s with
  | nil => rfl
  | cons a as ih =>
    simp only [strLe]
    rw [if_neg (Nat.lt_irrefl _), if_neg (Nat.lt_irrefl _)]
    exact ih

theorem strLe_total (s t : List Char) : strLe s t = true ∨ strLe t s = true := by
  induction s generalizing t with
  | nil => exact Or.inl rfl
  | cons a as ih =>
    cases t with
    | nil => exact Or.inr rfl
    | cons b bs =>
      by_cases h1 : a.toNat < b.toNat
      · left
        simp only [strLe]
        rw [if_pos h1]
      · by_cases h2 : b.toNat < a.toNat
        · right
          simp only [strLe]
          rw [if_pos h2]
        · rcases ih bs with h | h
          · left
            simp only [strLe]
            rw [if_neg h1, if_neg h2]
            exact h
          · right
            simp only [strLe]
            rw [if_neg h2, if_neg h1]
            exact h

theorem strLe_trans (s t u : List Char) :
    strLe s t = true → strLe t u = true → strLe s u = true := by
  induction s generalizing t u with
  | nil => intro h1 h2; rfl
  | cons a as ih =>
    intro h1 h2
    cases t with
    | nil => simp [strLe] at h1
    | cons b bs =>
      cases u with
      | nil => simp [strLe] at h2
      | cons c cs =>
        simp only [strLe] at h1 h2 ⊢
        split_ifs at h1 h2 ⊢ <;> first
          | rfl
          | omega
          | (exact ih bs cs h1 h2)

theorem keyLe_refl (k : PyKey) : keyLe k k = true := by
  cases k with
  | inl i => simp [keyLe]
  | inr s => simpa [keyLe] using strLe_refl s

theorem keyLe_total (k1 k2 : PyKey) : keyLe k1 k2 = true ∨ keyLe k2 k1 = true := by
  cases k1 with
  | inl i =>
    cases k2 with
    | inl j => simp only [keyLe, decide_eq_true_eq]; omega
    | inr t => exact Or.inl rfl
  | inr s =>
    cases k2 with
    | inl j => exact Or.inr rfl
    | inr t => simpa [keyLe] using strLe_total s t

theorem keyLe_trans (k1 k2 k3 : PyKey) :
    keyLe k1 k2 = true → keyLe k2 k3 = true → keyLe k1 k3 = true := by
  intro h1 h2
  cases k1 with
  | inl i =>
    cases k3 with
    | inl k =>
      cases k2 with
      | inl j =>
        simp only [keyLe, decide_eq_true_eq] at h1 h2 ⊢
        omega
      | inr t => simp [keyLe] at h2
    | inr t => rfl
  | inr s =>
    cases k2 with
    | inl j => simp [keyLe] at h1
    | inr t =>
      cases k3 with
      | inl k => simp [keyLe] at h2
      | inr u =>
        simp only [keyLe] at h1 h2 ⊢
        exact strLe_trans s t u h1 h2

instance : IsTotal Row dispLe :=
  ⟨fun r s => keyLe_total (rowKey r) (rowKey s)⟩

instance : IsTrans Row dispLe :=
  ⟨fun a b c h1 h2 => keyLe_trans (rowKey a) (rowKey b) (rowKey c) h1 h2⟩

theorem filter_orderedInsert_key_eq (a : Row) (l : List Row) :
    (List.orderedInsert dispLe a l).filter (fun b => decide (rowKey b = rowKey a))
      = a :: l.filter (fun b => decide (rowKey b = rowKey a)) := by
  induction l with
  | nil => simp [List.orderedInsert]
  | cons b t ih =>
    simp only [List.orderedInsert]
    by_cases h : dispLe a b
    · rw [if_pos h]
      simp only [List.filter_cons]
      rw [if_pos (by simp)]
    · rw [if_neg h]
      have hb : ¬ rowKey b = rowKey a := by
        intro he
        apply h
        unfold dispLe
        rw [he]
        exact keyLe_refl _
      simp only [List.filter_cons]
      rw [if_neg (by simp [hb]), if_neg (by simp [hb])]
      exact ih

theorem filter_orderedInsert_key_ne (a : Row) (k : PyKey) (hk : ¬ rowKey a = k)
    (l : List Row) :
    (List.orderedInsert dispLe a l).filter (fun b => decide (rowKey b = k))
      = l.filter (fun b => decide (rowKey b = k)) := by
  induction l with
  | nil => simp [List.orderedInsert, hk]
  | cons b t ih =>
    simp only [List.orderedInsert]
    by_cases h : dispLe a b
    · rw [if_pos h]
      simp only [List.filter_cons]
      rw [if_neg (by simp [hk])]
    · rw [if_neg h]
      simp only [List.filter_cons]
      by_cases hb : rowKey b = k
      · rw [if_pos (by simp [hb]), if_pos (by simp [hb]), ih]
      · rw [if_neg (by simp [hb]), if_neg (by simp [hb]), ih]

theorem orderForDisplay_key_filter (rows : List Row) (k : PyKey) :
    (orderForDisplay rows).filter (fun b => decide (rowKey b = k))
      = rows.filter (fun b => decide (rowKey b = k)) := by
  induction rows with
  | nil => rfl
  | cons r rs ih =>
    unfold orderForDisplay at ih ⊢
    simp only [List.insertionSort]
    by_cases hk : rowKey r = k
    · subst hk
      rw [filter_orderedInsert_key_eq, ih]
      simp only [List.filter_cons]
      rw [if_pos (by simp)]
    · rw [filter_orderedInsert_key_ne r k hk, ih]
      simp only [List.filter_cons]
      rw [if_neg (by simp [hk])]

/-! Derived facts about first-match removal and replacement. -/

theorem removeFirstById_length (t : Cell) (l l' : List Row)
    (h : removeFirstById t l = some l') : l'.length + 1 = l.length := by
  rcases removeFirstById_some_decomp t l l' h with ⟨l1, rm, l2, hdec, hres, _, _⟩
  rw [hdec, hres]
  simp
  omega

theorem removeFirstById_mem_subset (t : Cell) (l l' : List Row)
    (h : removeFirstById t l = some l') : ∀ r ∈ l', r ∈ l := by
  rcases removeFirstById_some_decomp t l l' h with ⟨l1, rm, l2, hdec, hres, _, _⟩
  subst hdec
  subst hres
  intro r hr
  rcases List.mem_append.mp hr with h1 | h1
  · exact List.mem_append.mpr (Or.inl h1)
  · exact List.mem_append.mpr (Or.inr (List.mem_cons_of_mem _ h1))

theorem removeFirstById_no_id_left (t : Cell) (l l' : List Row)
    (h : removeFirstById t l = some l')
    (hnd : l.Pairwise (fun a b => a.headD [] ≠ b.headD [])) :
    ∀ r ∈ l', rowIdIs r t = false := by
  rcases removeFirstById_some_decomp t l l' h with ⟨l1, rm, l2, hdec, hres, hid, hfirst⟩
  subst hdec
  subst hres
  have hpair := List.pairwise_append.mp hnd
  have hcross := hpair.2.2
  have hrm := List.pairwise_cons.mp hpair.2.1
  rcases (rowIdIs_iff rm t).mp hid with ⟨hrmne, hrmhead⟩
  intro r hr
  rcases List.mem_append.mp hr with h1 | h1
  · exact hfirst r h1
  · by_contra hcon
    have hrt : rowIdIs r t = true := by
      cases hv : rowIdIs r t with
      | true => rfl
      | false => exact absurd hv hcon
    rcases (rowIdIs_iff r t).mp hrt with ⟨hrne, hrhead⟩
    have hne := hrm.1 r h1
    rw [hrmhead, hrhead] at hne
    exact hne rfl

theorem replaceFirstById_length (t : Cell) (nr : Row) (l l' : List Row)
    (h : replaceFirstById t nr l = some l') : l'.length = l.length := by
  rcases replaceFirstById_some_decomp t nr l l' h with ⟨l1, rm, l2, hdec, hres, _, _⟩
  rw [hdec, hres]
  simp

theorem replaceFirstById_mem (t : Cell) (nr : Row) (l l' : List Row)
    (h : replaceFirstById t nr l = some l') : ∀ r ∈ l', r ∈ l ∨ r = nr := by
  rcases replaceFirstById_some_decomp t nr l l' h with ⟨l1, rm, l2, hdec, hres, _, _⟩
  subst hdec
  subst hres
  intro r hr
  rcases List.mem_append.mp hr with h1 | h1
  · exact Or.inl (List.mem_append.mpr (Or.inl h1))
  · rcases List.mem_cons.mp h1 with rfl | h2
    · exact Or.inr rfl
    · exact Or.inl (List.mem_append.mpr (Or.inr (List.mem_cons_of_mem _ h2)))

/-! Re-reading what the full-rewrite paths wrote. -/

theorem dataRowsPreview_append_two (keep data : List Row) (hk : keep.length = 2) :
    dataRowsPreview (keep ++ data) = data := by
  unfold dataRowsPreview
  cases data with
  | nil =>
    rw [if_neg]
    simp only [List.length_append, hk, List.length_nil]
    omega
  | cons d ds =>
    rw [if_pos]
    · rw [← hk, List.drop_left]
    · simp only [List.length_append, hk, List.length_cons]
      omega

theorem reread_rows (fs : Option (List Char)) (rows2 : List Row)
    (hclean : ∀ r ∈ read_all_rows fs, ∀ f ∈ r, cleanCell f = f)
    (hsub : ∀ r ∈ rows2, r ∈ read_all_rows fs ∨
      (r.length = COLUMNS.length ∧
        ∀ f ∈ r, ';' ∉ f ∧ (∀ c ∈ f, isLineBoundary c = false) ∧ cleanCell f = f)) :
    read_all_rows (some (encodeLines rows2)) = rows2 := by
  have hb : ∀ r ∈ rows2, ∀ f ∈ r, ∀ c ∈ f, isLineBoundary c = false := by
    intro r hr f hf c hc
    rcases hsub r hr with h1 | h1
    · exact ((mem_read_all_rows fs r h1).2 f hf).2 c hc
    · exact (h1.2 f hf).2.1 c hc
  have hs : ∀ r ∈ rows2, ∀ f ∈ r, ';' ∉ f := by
    intro r hr f hf
    rcases hsub r hr with h1 | h1
    · exact ((mem_read_all_rows fs r h1).2 f hf).1
    · exact (h1.2 f hf).1
  have hc2 : ∀ r ∈ rows2, ∀ f ∈ r, cleanCell f = f := by
    intro r hr f hf
    rcases hsub r hr with h1 | h1
    · exact hclean r h1 f hf
    · exact (h1.2 f hf).2.2
  rw [read_encodeLines rows2 hb hs hc2]
  apply map_eq_self_of_fix
  intro r hr
  apply padTo_eq_self
  rcases hsub r hr with h1 | h1
  · exact (mem_read_all_rows fs r h1).1
  · omega

/-! Concrete stores used as test fixtures. -/

/-- Form row appended by add_entry for id 7 (model input of append). -/
def rowSeven : List (Option Cell) :=
  [some (strC "7"), some (strC "Digital"), some (strC "d1"), some (strC "="),
   some (strC "TRUE"), some [], some [], some [], some [], some (strC "Error"),
   some (strC "msg"), some [], some [], some [], some []]

/-- The parsed row the reader recovers for rowSeven. -/
def rec7Row : Row :=
  [strC "7", strC "Digital", strC "d1", strC "=", strC "TRUE", [], [], [], [],
   strC "Error", strC "msg", [], [], [], []]

/-- A second parsed record with id 8. -/
def rec8Row : Row :=
  [strC "8", strC "Digital", strC "d2", strC "=", strC "FALSE", [], [], [], [],
   strC "Warning", strC "m8", [], [], [], []]

/-- A replacement record with id 9. -/
def newRow9 : Row :=
  [strC "9", strC "Digital", strC "d9", strC "=", strC "TRUE", [], [], [], [],
   strC "Error", strC "m9", [], [], [], []]

/-- A healthy store: fresh created file plus records 7 and 8. -/
def fsTwo : List Char := create_new_file_content ++ encodeLines [rec7Row, rec8Row]

/-- A store holding two data records that share the id 1. -/
def fsDup : List Char :=
  create_new_file_content ++ encodeLines [padTo 15 [strC "1", strC "a"], padTo 15 [strC "1", strC "b"]]

/-- A store holding one 16-field data line and a record with id 2. -/
def fsLong : List Char :=
  create_new_file_content ++ strC "1;b;c;d;e;f;g;h;i;j;k;l;m;n;o;p\r\n"
    ++ encodeLines [padTo 15 [strC "2"]]

/-! Claim theorems. -/

/-- Per-character effect of the three replace calls of the sanitizer. -/
def sanChar (c : Char) : Char :=
  if c = '\n' then ' ' else if c = '\r' then ' ' else if c = '"' then '\'' else c

theorem sanitizeVal_eq_map (s : List Char) : sanitizeVal (some s) = s.map sanChar := by
  simp only [sanitizeVal, replaceChar, List.map_map]
  apply List.map_congr_left
  intro a _
  by_cases h1 : a = '\n'
  · subst h1
    rfl
  · by_cases h2 : a = '\r'
    · subst h2
      rfl
    · by_cases h3 : a = '"'
      · subst h3
        rfl
      · simp [Function.comp, sanChar, h1, h2, h3]

theorem sanChar_ok (c : Char) :
    (!(sanChar c == '\n' || sanChar c == '\r' || sanChar c == '"')) = true := by
  by_cases h1 : c = '\n'
  · subst h1
    rfl
  · by_cases h2 : c = '\r'
    · subst h2
      rfl
    · by_cases h3 : c = '"'
      · subst h3
        rfl
      · simp [sanChar, h1, h2, h3]

theorem sanChar_idem (c : Char) : sanChar (sanChar c) = sanChar c := by
  by_cases h1 : c = '\n'
  · subst h1
    rfl
  · by_cases h2 : c = '\r'
    · subst h2
      rfl
    · by_cases h3 : c = '"'
      · subst h3
        rfl
      · simp [sanChar, h1, h2, h3]

/-- C7: the field sanitization of append_row_utf16le is a total function on
its modelled domain (absent values and strings), its output never contains
a newline, carriage return or double quote, and it is idempotent: applying
it to its own output changes nothing. -/
theorem sanitize_no_bad_chars_and_idempotent (v : Option Cell) :
    ((sanitizeVal v).all fun c => !(c == '\n' || c == '\r' || c == '"')) = true ∧
      sanitizeVal (some (sanitizeVal v)) = sanitizeVal v := by
  cases v with
  | none => exact ⟨rfl, rfl⟩
  | some s =>
    rw [sanitizeVal_eq_map]
    constructor
    · rw [List.all_eq_true]
      intro c hc
      rcases List.mem_map.mp hc with ⟨a, _, rfl⟩
      exact sanChar_ok a
    · rw [sanitizeVal_eq_map, List.map_map]
      apply List.map_congr_left
      intro a _
      exact sanChar_idem a

/-- C8: the display ordering is a permutation of its input that is pairwise
sorted by the try_int_key order (integer-keyed rows come before all
string-keyed rows, integer keys are compared by value, string keys by code
point), it is stable (filtering the output at any fixed key returns exactly
the input rows with that key in their input order), and on the ids
10, 2, abc, 1 it yields the order 1, 2, 10, abc. -/
theorem orderForDisplay_spec :
    (∀ rows : List Row,
        (orderForDisplay rows).Perm rows ∧
          (orderForDisplay rows).Pairwise dispLe ∧
          ∀ k : PyKey,
            (orderForDisplay rows).filter (fun b => decide (rowKey b = k))
              = rows.filter (fun b => decide (rowKey b = k))) ∧
      orderForDisplay [[strC "10"], [strC "2"], [strC "abc"], [strC "1"]]
        = [[strC "1"], [strC "2"], [strC "10"], [strC "abc"]] := by
  constructor
  · intro rows
    exact ⟨List.perm_insertionSort dispLe rows,
      List.sorted_insertionSort dispLe rows,
      fun k => orderForDisplay_key_filter rows k⟩
  · decide

/-- C10: every row returned by read_all_rows has at least the 15 schema
cells, so the indices 0 through 14 used by the display projection and the
edit and lookup paths are always in bounds. -/
theorem read_all_rows_row_length (fs : Option (List Char)) (r : Row)
    (hr : r ∈ read_all_rows fs) : 15 ≤ r.length := by
  have h := (mem_read_all_rows fs r hr).1
  rw [COLUMNS_length] at h
  exact h

theorem read_all_rows_row_length_witness :
    15 ≤ ((read_all_rows (some create_new_file_content)).headD []).length :=
  read_all_rows_row_length (some create_new_file_content) _ (by decide)

/-- C6 counterexample: after create_new_file, the decoded version cell is
not the exact text of the version stamp: the reader decodes the file with
the BOM-less utf-16-le codec, so the BOM survives as a leading U+FEFF
character of cell 0. -/
theorem create_decode_version_cell_ne :
    ((read_all_rows (some create_new_file_content)).headD []).headD []
      ≠ strC "#Version: 1.0.0.0" := by decide

/-- C6 amended: decoding a freshly created store yields exactly two parsed
lines: a version row whose cell 0 is the BOM character U+FEFF followed by
the text of the version stamp, with the remaining 14 cells empty, and a
header row whose 15 cells are the schema names. -/
theorem create_decode_shape :
    read_all_rows (some create_new_file_content)
      = [('﻿' :: strC "#Version: 1.0.0.0") :: List.replicate 14 [], COLUMNS] := by
  decide

/-- C5: appending to a missing path does create a header-only file (no
version line, no BOM) with the record as line 1, but listDataRecords
(the preview selection over read_all_rows) then returns no records at all
instead of the one appended record: the skip-first-two logic consumes the
header line and the appended record. -/
theorem append_missing_path_record_hidden :
    read_all_rows (some (append_row_utf16le none rowSeven)) = [COLUMNS, rec7Row] ∧
      dataRowsPreview (read_all_rows (some (append_row_utf16le none rowSeven))) = [] := by
  constructor
  · decide
  · decide

/-- C1: appending a record with the fresh id 7 to a freshly ensured
header-only store leaves id_exists false for 7 and leaves the preview
record count at zero, contradicting the claim that exists becomes true and
that the record count increases by one. -/
theorem append_fresh_id_still_invisible :
    (dataRowsPreview (read_all_rows (some (ensure_file_and_header none)))).length = 0 ∧
      (dataRowsPreview (read_all_rows
        (some (append_row_utf16le (some (ensure_file_and_header none)) rowSeven)))).length = 0 ∧
      id_exists (some (append_row_utf16le (some (ensure_file_and_header none)) rowSeven))
        (strC "7") none = false := by
  refine ⟨by decide, by decide, by decide⟩

/-- C2 counterexample: the single field made of a space followed by the
letter a is sanitized (it has no newline, carriage return or double quote),
yet decoding its encoding strips the leading space, so the round trip is
not byte-exact. -/
theorem encode_decode_not_exact :
    read_all_rows (some (encodeLines [[strC " a"]]))
      ≠ [padTo COLUMNS.length [strC " a"]] := by decide

/-- C2 amended: for record sets whose fields are sanitized and additionally
contain no delimiter and no line-boundary characters and are unchanged by
the reader's cell sanitization (no surrounding whitespace, double quotes or
apostrophes for it to strip), decoding the encoded store reproduces exactly
the records re-padded to the schema length. -/
theorem encode_decode_roundtrip (rows : List Row)
    (h : ∀ r ∈ rows, ∀ f ∈ r,
      (∀ c ∈ f, ¬(c = '\n' ∨ c = '\r' ∨ c = '"')) ∧
        ';' ∉ f ∧ (∀ c ∈ f, isLineBoundary c = false) ∧ cleanCell f = f) :
    read_all_rows (some (encodeLines rows)) = rows.map (padTo COLUMNS.length) :=
  read_encodeLines rows
    (fun r hr f hf => (h r hr f hf).2.2.1)
    (fun r hr f hf => (h r hr f hf).2.1)
    (fun r hr f hf => (h r hr f hf).2.2.2)

theorem encode_decode_roundtrip_witness :
    read_all_rows (some (encodeLines [[strC "a", strC "b"]]))
      = [[strC "a", strC "b"]].map (padTo COLUMNS.length) :=
  encode_decode_roundtrip [[strC "a", strC "b"]] (by decide)

/-- Field counts of the lines produced by encodeLines. -/
theorem encodeLines_cell_counts (rows : List Row)
    (hb : ∀ r ∈ rows, ∀ f ∈ r, ∀ c ∈ f, isLineBoundary c = false)
    (hs : ∀ r ∈ rows, ∀ f ∈ r, ';' ∉ f) :
    ∀ line ∈ splitlinesPy (encodeLines rows),
      15 ≤ (splitOnChar ';' line).length ∧
        ((∀ r ∈ rows, r.length ≤ 15) → (splitOnChar ';' line).length = 15) := by
  intro line hline
  rw [splitlinesPy_encodeLines rows hb] at hline
  rcases List.mem_map.mp hline with ⟨r, hr, rfl⟩
  have hsep : ∀ f ∈ padTo COLUMNS.length r, ';' ∉ f := by
    intro f hf
    rcases mem_padTo _ _ _ hf with h1 | h1
    · exact hs r hr f h1
    · subst h1
      simp
  have hne : padTo COLUMNS.length r ≠ [] := by
    intro he
    have h2 := padTo_length_ge COLUMNS.length r
    rw [he] at h2
    simp [COLUMNS_length] at h2
  unfold lineOf
  rw [splitOnChar_joinSep ';' _ hsep hne, padTo_length, COLUMNS_length]
  constructor
  · omega
  · intro hall
    have := hall r hr
    omega

/-- C9 counterexample: the store fsLong contains a 16-field data line;
removing the record with id 2 writes the store back with that line still
holding 16 fields, so not every written record has exactly the schema
length. -/
theorem delete_writes_overlong_row :
    (delete_selected_core (some fsLong) (strC "2")).map
        (fun out => (splitlinesPy out).map (fun l => (splitOnChar ';' l).length))
      = some [15, 15, 16] := by decide

/-- C9 amended: every line written by the remove path parses into at least
15 delimiter-separated fields, and the same holds for the update path
provided the new record's cells contain no delimiter and no line-boundary
characters (update does not sanitize its record, so a cell with an embedded
newline splits the written record across on-disk lines): rows shorter than
the schema are right-padded with empty cells before serialization, a row
decoded from an overlong source line keeps all its cells and is written
back with more than 15 fields, and every written line has exactly 15 fields
whenever every serialized row has at most 15 cells. -/
theorem rewrite_paths_pad_rows (fs : Option (List Char)) (target : Cell) (new_r : Row) :
    (∀ out, delete_selected_core fs target = some out →
        ∀ line ∈ splitlinesPy out, 15 ≤ (splitOnChar ';' line).length ∧
          ((∀ r ∈ read_all_rows fs, r.length ≤ 15) →
            (splitOnChar ';' line).length = 15)) ∧
      ((∀ f ∈ new_r, ';' ∉ f ∧ ∀ c ∈ f, isLineBoundary c = false) →
        ∀ out, save_changes_core fs target new_r = some out →
          ∀ line ∈ splitlinesPy out, 15 ≤ (splitOnChar ';' line).length ∧
            ((new_r.length ≤ 15 ∧ ∀ r ∈ read_all_rows fs, r.length ≤ 15) →
              (splitOnChar ';' line).length = 15)) := by
  constructor
  · intro out hout
    by_cases hlen : 2 < (read_all_rows fs).length
    · simp only [delete_selected_core, if_pos hlen] at hout
      cases he : removeFirstById target ((read_all_rows fs).drop 2) with
      | none =>
        rw [he] at hout
        have hout3 : (none : Option (List Char)) = some out := hout
        exact Option.noConfusion hout3
      | some d2 =>
        rw [he] at hout
        have hout2 : some (encodeLines ((read_all_rows fs).take 2 ++ d2)) = some out := hout
        rcases Option.some.injEq .. ▸ hout2 with rfl
        have hmem : ∀ r ∈ (read_all_rows fs).take 2 ++ d2, r ∈ read_all_rows fs := by
          intro r hr
          rcases List.mem_append.mp hr with h1 | h1
          · exact List.take_subset _ _ h1
          · exact List.drop_subset _ _ (removeFirstById_mem_subset target _ d2 he r h1)
        intro line hline
        have hcounts := encodeLines_cell_counts _
          (fun r hr f hf => ((mem_read_all_rows fs r (hmem r hr)).2 f hf).2)
          (fun r hr f hf => ((mem_read_all_rows fs r (hmem r hr)).2 f hf).1)
          line hline
        exact ⟨hcounts.1, fun hall => hcounts.2 (fun r hr => hall r (hmem r hr))⟩
    · simp only [delete_selected_core, if_neg hlen] at hout
      cases he : removeFirstById target (read_all_rows fs) with
      | none =>
        rw [he] at hout
        have hout3 : (none : Option (List Char)) = some out := hout
        exact Option.noConfusion hout3
      | some d2 =>
        rw [he] at hout
        have hout2 : some (encodeLines ([] ++ d2)) = some out := hout
        rcases Option.some.injEq .. ▸ hout2 with rfl
        have hmem : ∀ r ∈ ([] : List Row) ++ d2, r ∈ read_all_rows fs := by
          intro r hr
          rcases List.mem_append.mp hr with h1 | h1
          · simp at h1
          · exact removeFirstById_mem_subset target _ d2 he r h1
        intro line hline
        have hcounts := encodeLines_cell_counts _
          (fun r hr f hf => ((mem_read_all_rows fs r (hmem r hr)).2 f hf).2)
          (fun r hr f hf => ((mem_read_all_rows fs r (hmem r hr)).2 f hf).1)
          line hline
        exact ⟨hcounts.1, fun hall => hcounts.2 (fun r hr => hall r (hmem r hr))⟩
  · intro hnr out hout
    by_cases hlen : 2 < (read_all_rows fs).length
    · simp only [save_changes_core, if_pos hlen] at hout
      cases he : replaceFirstById target new_r ((read_all_rows fs).drop 2) with
      | none =>
        rw [he] at hout
        have hout3 : (none : Option (List Char)) = some out := hout
        exact Option.noConfusion hout3
      | some d2 =>
        rw [he] at hout
        have hout2 : some (encodeLines ((read_all_rows fs).take 2 ++ d2)) = some out := hout
        rcases Option.some.injEq .. ▸ hout2 with rfl
        have hmem : ∀ r ∈ (read_all_rows fs).take 2 ++ d2,
            r ∈ read_all_rows fs ∨ r = new_r := by
          intro r hr
          rcases List.mem_append.mp hr with h1 | h1
          · exact Or.inl (List.take_subset _ _ h1)
          · rcases replaceFirstById_mem target new_r _ d2 he r h1 with h2 | h2
            · exact Or.inl (List.drop_subset _ _ h2)
            · exact Or.inr h2
        intro line hline
        have hb : ∀ r ∈ (read_all_rows fs).take 2 ++ d2, ∀ f ∈ r, ∀ c ∈ f,
            isLineBoundary c = false := by
          intro r hr f hf c hc
          rcases hmem r hr with h1 | h1
          · exact ((mem_read_all_rows fs r h1).2 f hf).2 c hc
          · subst h1
            exact (hnr f hf).2 c hc
        have hs : ∀ r ∈ (read_all_rows fs).take 2 ++ d2, ∀ f ∈ r, ';' ∉ f := by
          intro r hr f hf
          rcases hmem r hr with h1 | h1
          · exact ((mem_read_all_rows fs r h1).2 f hf).1
          · subst h1
            exact (hnr f hf).1
        have hcounts := encodeLines_cell_counts _ hb hs line hline
        refine ⟨hcounts.1, fun hall => hcounts.2 ?_⟩
        intro r hr
        rcases hmem r hr with h1 | h1
        · exact hall.2 r h1
        · subst h1
          exact hall.1
    · simp only [save_changes_core, if_neg hlen] at hout
      cases he : replaceFirstById target new_r (read_all_rows fs) with
      | none =>
        rw [he] at hout
        have hout3 : (none : Option (List Char)) = some out := hout
        exact Option.noConfusion hout3
      | some d2 =>
        rw [he] at hout
        have hout2 : some (encodeLines ([] ++ d2)) = some out := hout
        rcases Option.some.injEq .. ▸ hout2 with rfl
        have hmem : ∀ r ∈ ([] : List Row) ++ d2,
            r ∈ read_all_rows fs ∨ r = new_r := by
          intro r hr
          rcases List.mem_append.mp hr with h1 | h1
          · simp at h1
          · rcases replaceFirstById_mem target new_r _ d2 he r h1 with h2 | h2
            · exact Or.inl h2
            · exact Or.inr h2
        intro line hline
        have hb : ∀ r ∈ ([] : List Row) ++ d2, ∀ f ∈ r, ∀ c ∈ f,
            isLineBoundary c = false := by
          intro r hr f hf c hc
          rcases hmem r hr with h1 | h1
          · exact ((mem_read_all_rows fs r h1).2 f hf).2 c hc
          · subst h1
            exact (hnr f hf).2 c hc
        have hs : ∀ r ∈ ([] : List Row) ++ d2, ∀ f ∈ r, ';' ∉ f := by
          intro r hr f hf
          rcases hmem r hr with h1 | h1
          · exact ((mem_read_all_rows fs r h1).2 f hf).1
          · subst h1
            exact (hnr f hf).1
        have hcounts := encodeLines_cell_counts _ hb hs line hline
        refine ⟨hcounts.1, fun hall => hcounts.2 ?_⟩
        intro r hr
        rcases hmem r hr with h1 | h1
        · exact hall.2 r h1
        · subst h1
          exact hall.1

theorem rewrite_paths_pad_rows_witness :
    15 ≤ (splitOnChar ';' ((splitlinesPy (encodeLines
        ((read_all_rows (some fsTwo)).take 2 ++ [rec7Row]))).headD [])).length := by
  have h := (rewrite_paths_pad_rows (some fsTwo) (strC "8") newRow9).1
  have h2 := h (encodeLines ((read_all_rows (some fsTwo)).take 2 ++ [rec7Row]))
    (by decide)
  exact (h2 _ (by decide)).1

/-- C4 counterexample: on the lazily ensured header-only store there is no
data record at all, yet remove with the header's own id does not fail with
not-found and leave the file untouched: it matches the header row (the
under-three-line fallback treats every row as data, keeps no header block)
and rewrites the file to empty. -/
theorem remove_header_only_clobbers :
    dataRowsPreview (read_all_rows (some (ensure_file_and_header none))) = [] ∧
      delete_selected_core (some (ensure_file_and_header none)) (strC "ID") = some [] := by
  exact ⟨by decide, by decide⟩

/-- C4 amended: on stores with at least three parsed lines, remove with an
id carried by no data record fails and writes nothing, and remove with a
present id rewrites the store with exactly the first matching data record
deleted: the record count drops by one, no record with the id remains when
data ids are pairwise distinct, and (when every stored cell is unchanged by
the reader's cell sanitization) re-reading the rewritten store returns
exactly the remaining records in order. -/
theorem remove_spec (fs : Option (List Char)) (target : Cell)
    (h3 : 2 < (read_all_rows fs).length) :
    ((∀ r ∈ (read_all_rows fs).drop 2, rowIdIs r target = false) →
        delete_selected_core fs target = none) ∧
      ∀ data2, removeFirstById target ((read_all_rows fs).drop 2) = some data2 →
        delete_selected_core fs target
            = some (encodeLines ((read_all_rows fs).take 2 ++ data2)) ∧
          data2.length + 1 = (dataRowsPreview (read_all_rows fs)).length ∧
          (((read_all_rows fs).drop 2).Pairwise (fun a b => a.headD [] ≠ b.headD []) →
            ∀ r ∈ data2, rowIdIs r target = false) ∧
          ((∀ r ∈ read_all_rows fs, ∀ f ∈ r, cleanCell f = f) →
            dataRowsPreview (read_all_rows (some (encodeLines
              ((read_all_rows fs).take 2 ++ data2)))) = data2) := by
  constructor
  · intro hall
    simp only [delete_selected_core, if_pos h3]
    rw [(removeFirstById_eq_none target _).mpr hall]
  · intro data2 hfound
    refine ⟨?_, ?_, ?_, ?_⟩
    · simp only [delete_selected_core, if_pos h3]
      rw [hfound]
    · have hl := removeFirstById_length target _ data2 hfound
      unfold dataRowsPreview
      rw [if_pos h3]
      exact hl
    · intro hpw
      exact removeFirstById_no_id_left target _ data2 hfound hpw
    · intro hclean
      have hsub : ∀ r ∈ (read_all_rows fs).take 2 ++ data2,
          r ∈ read_all_rows fs ∨
            (r.length = COLUMNS.length ∧
              ∀ f ∈ r, ';' ∉ f ∧ (∀ c ∈ f, isLineBoundary c = false) ∧ cleanCell f = f) := by
        intro r hr
        left
        rcases List.mem_append.mp hr with h1 | h1
        · exact List.take_subset _ _ h1
        · exact List.drop_subset _ _ (removeFirstById_mem_subset target _ data2 hfound r h1)
      rw [reread_rows fs _ hclean hsub]
      apply dataRowsPreview_append_two
      rw [List.length_take]
      omega

theorem remove_spec_witness :
    dataRowsPreview (read_all_rows (some (encodeLines
        ((read_all_rows (some fsTwo)).take 2 ++ [rec7Row])))) = [rec7Row] := by
  have h := (remove_spec (some fsTwo) (strC "8") (by decide)).2 [rec7Row] (by decide)
  exact h.2.2.2 (by decide)

/-- C3 counterexample: on a store holding two data records that share the
id 1, update of id 1 with a record carrying the fresh id 9 replaces only
the first match, so a record whose field 0 equals the old id remains even
though the new id differs from it. -/
theorem update_duplicate_id_leaves_old :
    (save_changes_core (some fsDup) (strC "1") newRow9).map
        (fun out => (dataRowsPreview (read_all_rows (some out))).countP
          (fun r => rowIdIs r (strC "1")))
      = some 1 ∧ newRow9.headD [] ≠ strC "1" := by
  exact ⟨by decide, by decide⟩

/-- C3 amended: on stores with at least three parsed lines, update of a
present id replaces exactly the first matching data record in place with
the new record, keeping every other record and the order: the record count
is unchanged; when every stored cell is unchanged by the reader's cell
sanitization and the new record's cells contain no delimiter and no
line-boundary characters and are also unchanged by the cell sanitization,
re-reading the rewritten store returns exactly the updated record list;
and when data ids are pairwise distinct and the new id is carried by no
other record, the result contains the new record exactly once and (if the
new id differs from the old one) no record with the old id. -/
theorem update_spec (fs : Option (List Char)) (target : Cell) (new_r : Row)
    (h3 : 2 < (read_all_rows fs).length)
    (hnr_len : new_r.length = COLUMNS.length)
    (data2 : List Row)
    (hfound : replaceFirstById target new_r ((read_all_rows fs).drop 2) = some data2) :
    save_changes_core fs target new_r
        = some (encodeLines ((read_all_rows fs).take 2 ++ data2)) ∧
      data2.length = (dataRowsPreview (read_all_rows fs)).length ∧
      ((∀ r ∈ read_all_rows fs, ∀ f ∈ r, cleanCell f = f) →
        (∀ f ∈ new_r, ';' ∉ f ∧ (∀ c ∈ f, isLineBoundary c = false) ∧ cleanCell f = f) →
        dataRowsPreview (read_all_rows (some (encodeLines
          ((read_all_rows fs).take 2 ++ data2)))) = data2) ∧
      (((read_all_rows fs).drop 2).Pairwise (fun a b => a.headD [] ≠ b.headD []) →
        (∀ r ∈ (read_all_rows fs).drop 2,
            rowIdIs r (new_r.headD []) = true → rowIdIs r target = true) →
          data2.count new_r = 1 ∧
            (¬ new_r.headD [] = target →
              ∀ r ∈ data2, rowIdIs r target = false)) := by
  refine ⟨?_, ?_, ?_, ?_⟩
  · simp only [save_changes_core, if_pos h3]
    rw [hfound]
  · have hl := replaceFirstById_length target new_r _ data2 hfound
    unfold dataRowsPreview
    rw [if_pos h3]
    exact hl
  · intro hclean hnr
    have hsub : ∀ r ∈ (read_all_rows fs).take 2 ++ data2,
        r ∈ read_all_rows fs ∨
          (r.length = COLUMNS.length ∧
            ∀ f ∈ r, ';' ∉ f ∧ (∀ c ∈ f, isLineBoundary c = false) ∧ cleanCell f = f) := by
      intro r hr
      rcases List.mem_append.mp hr with h1 | h1
      · exact Or.inl (List.take_subset _ _ h1)
      · rcases replaceFirstById_mem target new_r _ data2 hfound r h1 with h2 | h2
        · exact Or.inl (List.drop_subset _ _ h2)
        · subst h2
          exact Or.inr ⟨hnr_len, hnr⟩
    rw [reread_rows fs _ hclean hsub]
    apply dataRowsPreview_append_two
    rw [List.length_take]
    omega
  · intro hpw hfresh
    rcases replaceFirstById_some_decomp target new_r _ data2 hfound
      with ⟨l1, rm, l2, hdec, hres, hid, hfirst⟩
    have hnr_ne : new_r ≠ [] := by
      intro he
      rw [he, COLUMNS_length] at hnr_len
      exact absurd hnr_len (by decide)
    have hself : rowIdIs new_r (new_r.headD []) = true :=
      (rowIdIs_iff _ _).mpr ⟨hnr_ne, rfl⟩
    rw [hdec] at hpw hfresh
    have hpair := List.pairwise_append.mp hpw
    have hrm := (List.pairwise_cons.mp hpair.2.1).1
    rcases (rowIdIs_iff rm target).mp hid with ⟨hrmne, hrmhead⟩
    have hnot1 : new_r ∉ l1 := by
      intro hmem
      have h1 := hfirst new_r hmem
      have h2 := hfresh new_r (List.mem_append.mpr (Or.inl hmem)) hself
      rw [h2] at h1
      exact absurd h1 (by decide)
    have hnot2 : new_r ∉ l2 := by
      intro hmem
      have h2 := hfresh new_r
        (List.mem_append.mpr (Or.inr (List.mem_cons_of_mem _ hmem))) hself
      rcases (rowIdIs_iff new_r target).mp h2 with ⟨_, hhead⟩
      have h4 := hrm new_r hmem
      rw [hrmhead, hhead] at h4
      exact h4 rfl
    constructor
    · rw [hres, List.count_append]
      rw [List.count_eq_zero.mpr hnot1]
      rw [List.count_cons_self]
      rw [List.count_eq_zero.mpr hnot2]
    · intro hne r hr
      rw [hres] at hr
      rcases List.mem_append.mp hr with h1 | h1
      · exact hfirst r h1
      · rcases List.mem_cons.mp h1 with rfl | h2
        · cases hv : rowIdIs r target with
          | false => rfl
          | true =>
            rcases (rowIdIs_iff r target).mp hv with ⟨_, hh⟩
            exact absurd hh hne
        · cases hv : rowIdIs r target with
          | false => rfl
          | true =>
            rcases (rowIdIs_iff r target).mp hv with ⟨_, hh⟩
            have h4 := hrm r h2
            rw [hrmhead, hh] at h4
            exact absurd rfl h4

theorem update_spec_witness :
    dataRowsPreview (read_all_rows (some (encodeLines
        ((read_all_rows (some fsTwo)).take 2 ++ [rec7Row, newRow9])))) = [rec7Row, newRow9] := by
  have h := update_spec (some fsTwo) (strC "8") newRow9 (by decide) (by decide)
    [rec7Row, newRow9] (by decide)
  exact h.2.2.1 (by decide) (by decide)

end AlarmGen
